import Mathlib

/-!
Verification of the incremental Matrix room backup engine
(`main.go`, `utils.go`, and the extended variant with partition migration
and a whoami retry loop).  The Go code is shallowly embedded: pure helpers
become Lean functions, the filesystem state touched by `processEvents` /
`writeMetadata` becomes explicit state passing, and the network plus disk
I/O performed by the fetch loop is driven by an explicit script of page
responses and failure flags.
-/

namespace MatrixBackup

/-! ### Events

Models `event.Event` as used by the backup: the event id (`evt.ID`), the
millisecond timestamp (`evt.Timestamp`, a Go `int64`), and the rest of the
record as an opaque payload that is stored verbatim. -/

structure Event where
  id : String
  timestamp : Int
  payload : String := ""
deriving DecidableEq, Repr

/-! ### UTC calendar dates

`processEvents` buckets events with
`time.UnixMilli(evt.Timestamp).UTC().Format("2006-01-02")`.
We model this as: floor-divide the milliseconds into days since the Unix
epoch, convert days to a civil (proleptic Gregorian) date with the standard
era-based algorithm, and zero-pad the result as `YYYY-MM-DD` (the regime of
Go's reference format for years 0..9999). -/

def daysFromMillis (t : Int) : Int :=
  Int.ediv t 86400000

/-- Civil date `(year, month, day)` from days since 1970-01-01 (UTC).
Standard era-based calendar algorithm; all intermediate divisions have
nonnegative operands, so euclidean division coincides with the usual
truncating division. -/
def civilFromDays (z0 : Int) : Int × Int × Int :=
  let z := z0 + 719468
  let era := Int.ediv z 146097
  let doe := z - era * 146097
  let yoe := Int.ediv (doe - Int.ediv doe 1460 + Int.ediv doe 36524 - Int.ediv doe 146096) 365
  let y := yoe + era * 400
  let doy := doe - (365 * yoe + Int.ediv yoe 4 - Int.ediv yoe 100)
  let mp := Int.ediv (5 * doy + 2) 153
  let d := doy - Int.ediv (153 * mp + 2) 5 + 1
  let m := mp + (if mp < 10 then 3 else -9)
  (if m ≤ 2 then y + 1 else y, m, d)

def civilFromMillis (t : Int) : Int × Int × Int :=
  civilFromDays (daysFromMillis t)

def digitChar (n : Nat) : Char :=
  Char.ofNat (48 + n)

def pad2 (n : Nat) : List Char :=
  [digitChar (n / 10 % 10), digitChar (n % 10)]

def pad4 (n : Nat) : List Char :=
  [digitChar (n / 1000 % 10), digitChar (n / 100 % 10), digitChar (n / 10 % 10),
    digitChar (n % 10)]

/-- `YYYY-MM-DD` rendering of a civil date (Go format string `2006-01-02`). -/
def formatCivil (c : Int × Int × Int) : String :=
  String.mk (pad4 c.1.toNat ++ '-' :: (pad2 c.2.1.toNat ++ '-' :: pad2 c.2.2.toNat))

/-- The day-bucket key computed by `processEvents` for a timestamp. -/
def dateStr (t : Int) : String :=
  formatCivil (civilFromMillis t)

def eventDate (e : Event) : String :=
  dateStr e.timestamp

/-! ### Filename sanitizer (`sanitizeFilename` in `utils.go`)

The regex `[<>:"/\\|?*\x00-\x1F#]` is the unsafe character set; runs of two
or more underscores collapse to one (`__+` -> `_`); leading and trailing
characters from the cutset `_ .` are trimmed; the empty result falls back
to `"_"`.  We work on `List Char` (Go iterates runes for these operations)
and wrap into `String` at the end. -/

def unsafeChar (c : Char) : Bool :=
  c == '<' || c == '>' || c == ':' || c == '"' || c == '/' || c == '\\' ||
    c == '|' || c == '?' || c == '*' || decide (c.toNat ≤ 31) || c == '#'

def replaceUnsafe (l : List Char) : List Char :=
  l.map fun c => if unsafeChar c then '_' else c

/-- Collapses runs of two or more underscores to a single underscore.
The boolean records whether the previously emitted character was an
underscore (i.e. we are inside a run). -/
def collapseAux : Bool → List Char → List Char
  | _, [] => []
  | prev, c :: rest =>
    if c = '_' then
      if prev then collapseAux true rest
      else '_' :: collapseAux true rest
    else c :: collapseAux false rest

def trimCutset (c : Char) : Bool :=
  c == '_' || c == ' ' || c == '.'

def trimLeft (l : List Char) : List Char :=
  l.dropWhile trimCutset

def trimRight (l : List Char) : List Char :=
  (l.reverse.dropWhile trimCutset).reverse

/-- `strings.Trim(s, "_ .")`. -/
def trimBoth (l : List Char) : List Char :=
  trimRight (trimLeft l)

def sanitizeCore (l : List Char) : List Char :=
  if (trimBoth (collapseAux false (replaceUnsafe l))).isEmpty then ['_']
  else trimBoth (collapseAux false (replaceUnsafe l))

def sanitizeFilename (s : String) : String :=
  String.mk (sanitizeCore s.data)

/-! ### Event store (`processEvents`)

The per-room, date-sharded file store is modeled at the decoded level: an
association list from day-bucket key to the list of events stored in that
day's `data.json` (a missing entry is a missing file, which the Go code
treats like an empty list).  The Go map used for deduplication is modeled
as an association list updated in place on id collision (last write wins on
the value); the subsequent explicit stable sort by timestamp is the
correctness-bearing order, as the Go comment notes. -/

abbrev Store : Type := List (String × List Event)

def storeGet (st : Store) (d : String) : Option (List Event) :=
  match st with
  | [] => none
  | p :: rest => if p.1 == d then some p.2 else storeGet rest d

def storeSet (st : Store) (d : String) (evs : List Event) : Store :=
  match st with
  | [] => [(d, evs)]
  | p :: rest => if p.1 == d then (d, evs) :: rest else p :: storeSet rest d evs

/-- The contents of one day shard (empty when the file does not exist). -/
def shardOf (st : Store) (d : String) : List Event :=
  (storeGet st d).getD []

/-- One assignment `mergedEventsMap[evt.ID] = evt`: replace the entry with
the same id if present (last write wins), otherwise add the event. -/
def upsert (m : List Event) (e : Event) : List Event :=
  if m.any (fun x => x.id == e.id) then
    m.map fun x => if x.id == e.id then e else x
  else m ++ [e]

/-- Builds the id-keyed map seeded with existing events then overwritten by
new events in encounter order. -/
def buildIdMap (evs : List Event) : List Event :=
  evs.foldl upsert []

/-- Stable insertion placing `e` before the first element with a strictly
larger-or-equal position under the `Timestamp <` comparator; together with
`sortByTs` this is exactly the stable sort `sort.SliceStable` performs. -/
def insertByTs (e : Event) : List Event → List Event
  | [] => [e]
  | x :: xs => if e.timestamp ≤ x.timestamp then e :: x :: xs else x :: insertByTs e xs

/-- Stable sort ascending by `Timestamp` (`sort.SliceStable` with
`Timestamp <` as the less function). -/
def sortByTs (l : List Event) : List Event :=
  l.foldr insertByTs []

/-- Merging one day's new events into the existing shard contents. -/
def mergeShard (existing daily : List Event) : List Event :=
  sortByTs (buildIdMap (existing ++ daily))

/-- The body of the per-date loop of `processEvents`: read the existing
day shard (missing or, per the recovery path, undecodable file = empty),
merge this date's slice of the batch into it, write it back. -/
def mergeDay (events : List Event) (acc : Store) (d : String) : Store :=
  storeSet acc d
    (mergeShard (shardOf acc d) (events.filter (fun e => eventDate e == d)))

/-- `processEvents`: group the batch by UTC date and merge each group into
its day shard.  Distinct dates touch distinct files, so folding the date
keys in first-occurrence order is a deterministic refinement of the Go
map iteration. -/
def processEvents (st : Store) (events : List Event) : Store :=
  ((events.map eventDate).dedup).foldl (mergeDay events) st

def ids (evs : List Event) : List String :=
  evs.map Event.id

/-- The ordering `processEvents` sorts each shard by. -/
def tsLE (a b : Event) : Prop :=
  a.timestamp ≤ b.timestamp

/-! ### Checkpoint store (`Metadata`, `writeMetadata`, `updateMetadataToken`)

`writeMetadata` marshals `Metadata` and hands it to a single `os.WriteFile`
call on the final path; we record the sequence of filesystem operations it
performs, and a crash model in which an interrupted write leaves a prefix
of the new contents in the file. -/

def metadataFilename : String := "metadata.json"

def dataFilename : String := "data.json"

inductive FsOp where
  | writeFile (path : String) (contents : List Char)
  | rename (src dst : String)
deriving DecidableEq, Repr

/-- `json.MarshalIndent(meta, "", "  ")` for `Metadata\x7bNextToken\x7d`
(token assumed free of JSON-escaped characters, which holds for the opaque
pagination tokens). -/
def marshalMetadata (nextToken : String) : List Char :=
  "\x7b\n  \"next_token\": \"".data ++ nextToken.data ++ "\"\n\x7d".data

/-- The filesystem operations performed by `writeMetadata`: one direct
write of the marshaled document to `roomPath/metadata.json`. -/
def writeMetadataOps (roomPath nextToken : String) : List FsOp :=
  [FsOp.writeFile (roomPath ++ "/" ++ metadataFilename) (marshalMetadata nextToken)]

/-- What a reader can observe if the process crashes after `k` characters
of an in-place `os.WriteFile` have reached the (truncated) file. -/
def crashObservation (op : FsOp) (k : Nat) : Option (List Char) :=
  match op with
  | FsOp.writeFile _ contents => some (contents.take k)
  | FsOp.rename _ _ => none

/-- `updateMetadataToken`: the on-disk token after the call, given the
current on-disk token, the new token, and whether the write fails (the
failure is logged and otherwise ignored). -/
def updateMetadataToken (diskToken newToken : String) (saveFails : Bool) : String :=
  if newToken != diskToken then
    (if saveFails then diskToken else newToken)
  else diskToken

/-! ### Fetch loop (`fetchAndProcessRoomMessages`) and `backupRoom`

The loop is driven by a script of page responses; each `PageResp` is what
`client.Messages` returns for the next request (or a transport failure),
together with whether the `processEvents` call for that page fails.  A
merge failure aborts the call before the store model is updated; the Go
code may leave some dates of the failing page written (fail fast), which
no theorem below relies on.  The loop performs no metadata writes, so the
on-disk token is threaded through unchanged; `backupRoom` persists it once
afterwards, and only when the loop returned without error. -/

structure PageResp where
  fetchErr : Bool := false
  chunk : List Event := []
  endTok : String := ""
  mergeErr : Bool := false
deriving Repr

inductive LoopExit where
  | ok
  | fetchFail
  | mergeFail
  | outOfResponses
deriving DecidableEq, Repr

structure RunResult where
  diskToken : String
  token : String
  total : Nat
  store : Store
  exit : LoopExit
  /-- One entry per request issued: the token requested from and the
  on-disk checkpoint value at the moment of the request. -/
  trace : List (String × String)

/-- `fetchAndProcessRoomMessages`, with the on-disk checkpoint made
explicit (the loop never writes it).  `.outOfResponses` marks scripts too
short to reach one of the loop's own termination conditions; it is an
artifact of the finite script, not a behavior of the code. -/
def fetchLoop (store : Store) (diskToken tok : String) (total : Nat) :
    List PageResp → RunResult
  | [] => ⟨diskToken, tok, total, store, LoopExit.outOfResponses, []⟩
  | p :: rest =>
    if p.fetchErr then ⟨diskToken, tok, total, store, LoopExit.fetchFail, [(tok, diskToken)]⟩
    else if p.chunk.isEmpty then ⟨diskToken, tok, total, store, LoopExit.ok, [(tok, diskToken)]⟩
    else if p.mergeErr then ⟨diskToken, tok, total, store, LoopExit.mergeFail, [(tok, diskToken)]⟩
    else
      let store2 := processEvents store p.chunk
      let total2 := total + p.chunk.length
      if p.endTok == tok then ⟨diskToken, tok, total2, store2, LoopExit.ok, [(tok, diskToken)]⟩
      else
        let r := fetchLoop store2 diskToken p.endTok total2 rest
        { r with trace := (tok, diskToken) :: r.trace }

/-- `backupRoom` from `readMetadata` onwards: read the checkpoint, run a
best-effort migration whose failure is only logged (`migrationErrored` is
therefore ignored), run the fetch loop, and persist the final token via
`updateMetadataToken` only when the loop returned no error. -/
def backupRun (store0 : Store) (initialDisk : String) (resps : List PageResp)
    (saveFails migrationErrored : Bool) : RunResult :=
  let _ := migrationErrored
  if (fetchLoop store0 initialDisk initialDisk 0 resps).exit = LoopExit.ok then
    { fetchLoop store0 initialDisk initialDisk 0 resps with
      diskToken := updateMetadataToken (fetchLoop store0 initialDisk initialDisk 0 resps).diskToken
        (fetchLoop store0 initialDisk initialDisk 0 resps).token saveFails }
  else fetchLoop store0 initialDisk initialDisk 0 resps

/-- `Advances tok pre out`: starting from token `tok`, every page of `pre`
is fetched successfully, carries a nonempty chunk, merges successfully,
and advances the token (its continuation point differs from the current
token); `out` is the token after the last page of `pre`. -/
inductive Advances : String → List PageResp → String → Prop where
  | nil (tok : String) : Advances tok [] tok
  | cons (tok : String) (p : PageResp) (rest : List PageResp) (out : String) :
      p.fetchErr = false → p.chunk ≠ [] → p.mergeErr = false → p.endTok ≠ tok →
      Advances p.endTok rest out → Advances tok (p :: rest) out

/-- A token is reachable from `tok` under a script iff some prefix of the
script consists solely of successfully merged, token-advancing pages whose
net effect is that token.  "Never advanced past unmerged data" is exactly:
the persisted token is always reachable. -/
def Reachable (tok : String) (resps : List PageResp) (out : String) : Prop :=
  ∃ pre rest, resps = pre ++ rest ∧ Advances tok pre out

/-! ### Partition migration (`processSingleOldDirectory` in the variant
with `mergeOldRoomData`)

A candidate old directory is described by its listing (or a read failure)
and flags for whether the `processEvents` merge into the target and the
final `os.RemoveAll` fail.  File contents are given at the decoded level:
`none` stands for an unmarshalable file. -/

structure OldFile where
  name : String
  isDir : Bool := false
  readErr : Bool := false
  decoded : Option (List Event) := none
deriving Repr

/-- `strings.HasSuffix`, at the character level. -/
def hasSuffix (s tail : String) : Bool :=
  List.isSuffixOf tail.data s.data

/-- The event-collection phase: skip subdirectories, the metadata file and
non-`.json` files; skip (but count) unreadable or unmarshalable files;
concatenate the decoded event lists in file order. -/
def collectOldEvents : List OldFile → List Event × Nat
  | [] => ([], 0)
  | f :: rest =>
    let r := collectOldEvents rest
    if f.isDir || f.name == metadataFilename then r
    else if !(hasSuffix f.name ".json") then r
    else if f.readErr then (r.1, r.2 + 1)
    else
      match f.decoded with
      | none => (r.1, r.2 + 1)
      | some es => (es ++ r.1, r.2)

structure MigrationStepResult where
  store : Store
  removed : Bool
  errored : Bool
deriving Repr

/-- The fail-fast failure behavior of `processEvents` (the reference
policy: stop at the first create/read/marshal/write error, leaving the
dates already written persisted).  When the per-date loop fails while
handling the date at index `k` of the date list, the dates before `k`
have been merged normally and the failing date's file is left in whatever
decodable state the interrupted operation produced — `failedShard` ranges
over the possibilities: the old contents (failure before the write), a
truncated or garbage file that a later read treats as empty (`[]`), or
any prefix that still decodes.  A date index past the list means the
failure struck only after every date was written. -/
def processEventsFailAt (st : Store) (events : List Event) (k : Nat)
    (failedShard : List Event) : Store :=
  let dates := (events.map eventDate).dedup
  let merged := (dates.take k).foldl (mergeDay events) st
  match dates.get? k with
  | none => merged
  | some d => storeSet merged d failedShard

/-- `processSingleOldDirectory`: read the old directory, collect its
events, merge them into the target store if there are any, and remove the
directory only after the merge succeeded (or there was nothing to merge).
`mergeFailsAt` is the environment's failure oracle for the merge: `none`
means `processEvents` succeeds; `some (k, failedShard)` means its
fail-fast per-date loop errors out at date index `k` leaving the partial
state `processEventsFailAt` describes.  On merge failure the directory is
left in place and an error is returned; read errors of individual files
alone do not fail the call. -/
def processSingleOldDirectory (store : Store) (readDirErr : Bool) (files : List OldFile)
    (mergeFailsAt : Option (Nat × List Event)) (removeFails : Bool) : MigrationStepResult :=
  if readDirErr then ⟨store, false, true⟩
  else
    let allEvents := (collectOldEvents files).1
    if allEvents.isEmpty then
      if removeFails then ⟨store, false, true⟩ else ⟨store, true, false⟩
    else
      match mergeFailsAt with
      | some (k, failedShard) =>
        ⟨processEventsFailAt store allEvents k failedShard, false, true⟩
      | none =>
        if removeFails then ⟨processEvents store allEvents, false, true⟩
        else ⟨processEvents store allEvents, true, false⟩

/-! ### Whoami retry policy (`initializeMatrixClient`, retrying variant)

The error of one `Whoami` attempt: which transport-level case of the
`switch` it matches (with the flags the code tests on the underlying
error), and the HTTP status code when `errors.As` extracts an
`mautrix.HTTPError` with a non-nil response. -/

inductive TransportErr where
  | urlErr (eof connRefused timedOut noHost : Bool)
  | netOpErr (connRefused noHost unreachable : Bool)
  | eofErr
  | otherErr
deriving DecidableEq, Repr

def transportRetryable : TransportErr → Bool
  | TransportErr.urlErr eof cr t nh => eof || cr || t || nh
  | TransportErr.netOpErr cr nh unr => cr || nh || unr
  | TransportErr.eofErr => true
  | TransportErr.otherErr => false

structure WhoamiError where
  transport : TransportErr
  httpStatus : Option Int := none
deriving DecidableEq, Repr

/-- The retryable classification: transport checks first, then the HTTP
status override (4xx except 429 never retryable, 5xx or 429 always
retryable). -/
def isRetryableWhoami (e : WhoamiError) : Bool :=
  let r := transportRetryable e.transport
  match e.httpStatus with
  | some code =>
    if 400 ≤ code ∧ code < 500 ∧ code ≠ 429 then false
    else if 500 ≤ code ∨ code = 429 then true
    else r
  | none => r

/-- The fixed inter-attempt delay (`matrixConnectionRetryDelay`). -/
def matrixConnectionRetryDelaySeconds : Nat := 10

inductive InitOutcome where
  | success (attempts : Nat)
  | fatalError (attempts : Nat)
  | maxRetriesExceeded (attempts : Nat)
  /-- Script exhausted while the loop would keep retrying (artifact of the
  finite script; the code allows unbounded retries). -/
  | stillRetrying (attempts : Nat)
deriving DecidableEq, Repr

/-- The `Whoami` retry loop: each script entry is the outcome of one
attempt (`none` = success).  `maxWhoamiRetries` is the configured maximum
(`<= 0` means unbounded); `n` is the zero-based attempt counter. -/
def whoamiRetryLoop (maxWhoamiRetries : Int) : List (Option WhoamiError) → Nat → InitOutcome
  | [], n => InitOutcome.stillRetrying n
  | none :: _, n => InitOutcome.success n
  | some e :: rest, n =>
    if isRetryableWhoami e then
      if maxWhoamiRetries > 0 ∧ (n : Int) ≥ maxWhoamiRetries - 1 then
        InitOutcome.maxRetriesExceeded n
      else whoamiRetryLoop maxWhoamiRetries rest (n + 1)
    else InitOutcome.fatalError n

/-! ### Directory-key extraction (`mergeOldRoomData`)

`strings.LastIndex(dirName, ":!")` followed by `dirName[sep+1:]`: the
extraction keeps the `!`.  `extractRoomID` returns the suffix after the
last occurrence of `:!`, starting at the `!`. -/

def containsColonBang : List Char → Bool
  | [] => false
  | c :: rest =>
    if c = ':' ∧ rest.head? = some '!' then true else containsColonBang rest

def extractRoomID : List Char → Option (List Char)
  | [] => none
  | c :: rest =>
    match extractRoomID rest with
    | some r => some r
    | none => if c = ':' ∧ rest.head? = some '!' then some rest else none

/-! ### Concrete data for the spec's worked examples -/

def evE1 : Event := ⟨"e1", 100, ""⟩
def evE2 : Event := ⟨"e2", 100, ""⟩
def evE3 : Event := ⟨"e3", 200, ""⟩

/-- Batch A of the dedup-correctness example. -/
def batchA : List Event := [evE1, evE2]

/-- Batch B of the dedup-correctness example. -/
def batchB : List Event := [evE1, evE3]

/-! ### Specification predicates -/

/-- Some batch of the sequence contains an event with this id whose
timestamp falls on day `d`. -/
def batchesHaveId (batches : List (List Event)) (d i : String) : Prop :=
  ∃ b ∈ batches, ∃ e ∈ b, e.id = i ∧ eventDate e = d

/-- Well-formed store: every day shard is sorted ascending by timestamp
and holds no two events with the same id.  Every store produced by
`processEvents` satisfies this. -/
def WfShards (st : Store) : Prop :=
  ∀ d, List.Pairwise tsLE (shardOf st d) ∧ (ids (shardOf st d)).Nodup

/-- The year/month/day ranges in which the `YYYY-MM-DD` zero-padding of
`formatCivil` is faithful (4 and 2 digits); every timestamp between the
years 0 and 9999 lands here. -/
def civilInRange (c : Int × Int × Int) : Prop :=
  0 ≤ c.1 ∧ c.1 ≤ 9999 ∧ 0 ≤ c.2.1 ∧ c.2.1 ≤ 99 ∧ 0 ≤ c.2.2 ∧ c.2.2 ≤ 99

/-- No two adjacent underscores (the normal form established by the
underscore-collapsing pass of the sanitizer). -/
def NoDoubleUnderscore (l : List Char) : Prop :=
  List.Chain' (fun a b => ¬(a = '_' ∧ b = '_')) l

/-! ## Lemmas about the id-keyed merge map -/

theorem ids_upsert_of_mem {m : List Event} {e : Event}
    (h : m.any (fun x => x.id == e.id) = true) : ids (upsert m e) = ids m := by
  unfold upsert ids
  rw [if_pos h, List.map_map]
  refine List.map_congr_left fun x _ => ?_
  by_cases hx : x.id = e.id <;> simp [Function.comp, hx]

theorem ids_upsert_of_not_mem {m : List Event} {e : Event}
    (h : ¬ m.any (fun x => x.id == e.id) = true) :
    ids (upsert m e) = ids m ++ [e.id] := by
  unfold upsert ids
  rw [if_neg h, List.map_append]
  rfl

theorem mem_ids_iff {i : String} {m : List Event} :
    i ∈ ids m ↔ ∃ x ∈ m, x.id = i := by
  simp [ids]

theorem mem_ids_upsert {i : String} (m : List Event) (e : Event) :
    i ∈ ids (upsert m e) ↔ i ∈ ids m ∨ i = e.id := by
  by_cases h : m.any (fun x => x.id == e.id) = true
  · rw [ids_upsert_of_mem h]
    rcases List.any_eq_true.mp h with ⟨x, hx, hxe⟩
    constructor
    · exact Or.inl
    · rintro (hi | rfl)
      · exact hi
      · exact mem_ids_iff.mpr ⟨x, hx, by simpa using hxe⟩
  · rw [ids_upsert_of_not_mem h]
    simp [eq_comm]

theorem nodup_ids_upsert {m : List Event} (e : Event) (h : (ids m).Nodup) :
    (ids (upsert m e)).Nodup := by
  by_cases hm : m.any (fun x => x.id == e.id) = true
  · rwa [ids_upsert_of_mem hm]
  · rw [ids_upsert_of_not_mem hm]
    have : e.id ∉ ids m := by
      intro hmem
      rcases mem_ids_iff.mp hmem with ⟨x, hx, hxe⟩
      exact hm (List.any_eq_true.mpr ⟨x, hx, by simp [hxe]⟩)
    simpa [List.nodup_append] using ⟨h, this⟩

theorem nodup_ids_foldl_upsert (l : List Event) :
    ∀ m, (ids m).Nodup → (ids (l.foldl upsert m)).Nodup := by
  induction l with
  | nil => intro m hm; simpa using hm
  | cons e l ih => intro m hm; exact ih _ (nodup_ids_upsert e hm)

theorem mem_ids_foldl_upsert {i : String} (l : List Event) :
    ∀ m, i ∈ ids (l.foldl upsert m) ↔ i ∈ ids m ∨ i ∈ ids l := by
  induction l with
  | nil => intro m; simp [ids]
  | cons e l ih =>
    intro m
    rw [List.foldl_cons, ih, mem_ids_upsert]
    constructor
    · rintro ((h | h) | h)
      · exact Or.inl h
      · exact Or.inr (by simp [ids, h])
      · exact Or.inr (by simp [ids]; exact Or.inr (mem_ids_iff.mp h))
    · rintro (h | h)
      · exact Or.inl (Or.inl h)
      · rcases (by simpa [ids] using h : i = e.id ∨ i ∈ ids l) with h | h
        · exact Or.inl (Or.inr h)
        · exact Or.inr h

theorem nodup_ids_buildIdMap (evs : List Event) : (ids (buildIdMap evs)).Nodup :=
  nodup_ids_foldl_upsert evs [] (by simp [ids])

theorem mem_ids_buildIdMap {i : String} (evs : List Event) :
    i ∈ ids (buildIdMap evs) ↔ i ∈ ids evs := by
  rw [buildIdMap, mem_ids_foldl_upsert]
  simp [ids]

/-! ## Lemmas about the stable sort by timestamp -/

theorem insertByTs_perm (e : Event) (l : List Event) :
    List.Perm (insertByTs e l) (e :: l) := by
  induction l with
  | nil => exact List.Perm.refl _
  | cons x xs ih =>
    unfold insertByTs
    split
    · exact List.Perm.refl _
    · exact (List.Perm.cons x ih).trans (List.Perm.swap e x xs)

theorem sortByTs_perm (l : List Event) : List.Perm (sortByTs l) l := by
  induction l with
  | nil => exact List.Perm.refl _
  | cons x xs ih =>
    exact (insertByTs_perm x (sortByTs xs)).trans (List.Perm.cons x ih)

theorem pairwise_insertByTs (e : Event) {l : List Event}
    (h : List.Pairwise tsLE l) : List.Pairwise tsLE (insertByTs e l) := by
  induction l with
  | nil => simp [insertByTs, tsLE]
  | cons x xs ih =>
    rcases List.pairwise_cons.mp h with ⟨hx, hxs⟩
    unfold insertByTs
    split
    · rename_i hle
      refine List.Pairwise.cons ?_ h
      intro y hy
      rcases List.mem_cons.mp hy with rfl | hy
      · exact hle
      · exact le_trans hle (hx y hy)
    · rename_i hgt
      push_neg at hgt
      refine List.Pairwise.cons ?_ (ih hxs)
      intro y hy
      rcases List.mem_cons.mp ((insertByTs_perm e xs).mem_iff.mp hy) with rfl | hy
      · exact le_of_lt hgt
      · exact hx y hy

theorem pairwise_sortByTs (l : List Event) : List.Pairwise tsLE (sortByTs l) := by
  induction l with
  | nil => simp [sortByTs]
  | cons x xs ih => exact pairwise_insertByTs x ih

theorem sortByTs_of_pairwise {l : List Event}
    (h : List.Pairwise tsLE l) : sortByTs l = l := by
  induction l with
  | nil => rfl
  | cons x xs ih =>
    rcases List.pairwise_cons.mp h with ⟨hx, hxs⟩
    show insertByTs x (sortByTs xs) = x :: xs
    rw [ih hxs]
    cases xs with
    | nil => rfl
    | cons y ys =>
      have hle : x.timestamp ≤ y.timestamp := hx y (by simp)
      unfold insertByTs
      rw [if_pos hle]

/-! ## Lemmas about `mergeShard` -/

theorem mergeShard_perm (ex dl : List Event) :
    List.Perm (mergeShard ex dl) (buildIdMap (ex ++ dl)) :=
  sortByTs_perm _

theorem pairwise_mergeShard (ex dl : List Event) :
    List.Pairwise tsLE (mergeShard ex dl) :=
  pairwise_sortByTs _

theorem nodup_ids_mergeShard (ex dl : List Event) :
    (ids (mergeShard ex dl)).Nodup :=
  (((mergeShard_perm ex dl).map Event.id).nodup_iff).mpr (nodup_ids_buildIdMap (ex ++ dl))

theorem mem_ids_mergeShard {i : String} (ex dl : List Event) :
    i ∈ ids (mergeShard ex dl) ↔ i ∈ ids ex ∨ i ∈ ids dl := by
  have hp : List.Perm (ids (mergeShard ex dl)) (ids (buildIdMap (ex ++ dl))) :=
    (mergeShard_perm ex dl).map Event.id
  rw [hp.mem_iff, mem_ids_buildIdMap]
  simp [ids]

/-! ## Identity lemmas: merging already-stored events is a no-op -/

theorem foldl_upsert_of_nodup (l : List Event) :
    ∀ m, (ids (m ++ l)).Nodup → l.foldl upsert m = m ++ l := by
  induction l with
  | nil => intro m _; simp
  | cons e l ih =>
    intro m hm
    have hnotin : ¬ m.any (fun x => x.id == e.id) = true := by
      intro hany
      rcases List.any_eq_true.mp hany with ⟨x, hx, hxe⟩
      have hx2 : x.id = e.id := by simpa using hxe
      have : e.id ∈ ids m := mem_ids_iff.mpr ⟨x, hx, hx2⟩
      have hdisj := (List.nodup_append.mp (by simpa [ids, List.map_append] using hm)).2.2
      exact hdisj this (by simp [ids])
    rw [List.foldl_cons]
    have hup : upsert m e = m ++ [e] := by unfold upsert; rw [if_neg hnotin]
    rw [hup]
    have := ih (m ++ [e]) (by simpa [ids] using hm)
    rw [this]
    simp

theorem buildIdMap_eq_self {l : List Event} (h : (ids l).Nodup) :
    buildIdMap l = l := by
  have := foldl_upsert_of_nodup l [] (by simpa [ids] using h)
  simpa [buildIdMap] using this

theorem upsert_of_mem {m : List Event} {e : Event}
    (he : e ∈ m) (h : (ids m).Nodup) : upsert m e = m := by
  have hany : m.any (fun x => x.id == e.id) = true :=
    List.any_eq_true.mpr ⟨e, he, by simp⟩
  unfold upsert
  rw [if_pos hany]
  conv_rhs => rw [← List.map_id m]
  refine List.map_congr_left fun x hx => ?_
  show (if (x.id == e.id) = true then e else x) = x
  by_cases hxe : x.id = e.id
  · rw [if_pos (by simpa using hxe)]
    exact (List.inj_on_of_nodup_map (by simpa [ids] using h) hx he hxe).symm
  · rw [if_neg (by simpa using hxe)]

theorem foldl_upsert_of_subset (l : List Event) :
    ∀ m, (∀ e ∈ l, e ∈ m) → (ids m).Nodup → l.foldl upsert m = m := by
  induction l with
  | nil => intro m _ _; rfl
  | cons e l ih =>
    intro m hsub hm
    rw [List.foldl_cons, upsert_of_mem (hsub e (by simp)) hm]
    exact ih m (fun x hx => hsub x (by simp [hx])) hm

theorem mergeShard_of_subset {ex dl : List Event}
    (hnodup : (ids ex).Nodup) (hsorted : List.Pairwise tsLE ex)
    (hsub : ∀ e ∈ dl, e ∈ ex) : mergeShard ex dl = ex := by
  unfold mergeShard
  rw [buildIdMap, List.foldl_append]
  rw [show ex.foldl upsert [] = buildIdMap ex from rfl, buildIdMap_eq_self hnodup]
  rw [foldl_upsert_of_subset dl ex hsub hnodup]
  exact sortByTs_of_pairwise hsorted

/-! ## Lemmas about the store -/

theorem storeGet_storeSet_self (st : Store) (d : String) (evs : List Event) :
    storeGet (storeSet st d evs) d = some evs := by
  induction st with
  | nil => simp [storeSet, storeGet]
  | cons p rest ih =>
    unfold storeSet
    by_cases h : (p.1 == d) = true
    · rw [if_pos h]; simp [storeGet]
    · rw [if_neg h]; unfold storeGet; rw [if_neg h]; exact ih

theorem storeGet_storeSet_ne (st : Store) {d d2 : String} (evs : List Event)
    (h : d2 ≠ d) : storeGet (storeSet st d evs) d2 = storeGet st d2 := by
  induction st with
  | nil =>
    show storeGet [(d, evs)] d2 = storeGet [] d2
    unfold storeGet
    rw [if_neg (by simp [Ne.symm h])]
    rfl
  | cons p rest ih =>
    unfold storeSet
    by_cases hp : (p.1 == d) = true
    · rw [if_pos hp]
      have hpd : p.1 = d := by simpa using hp
      show storeGet ((d, evs) :: rest) d2 = storeGet (p :: rest) d2
      unfold storeGet
      rw [if_neg (by simp [Ne.symm h]), if_neg (by simp [hpd, Ne.symm h])]
    · rw [if_neg hp]
      unfold storeGet
      by_cases hp2 : (p.1 == d2) = true
      · rw [if_pos hp2, if_pos hp2]
      · rw [if_neg hp2, if_neg hp2]; exact ih

theorem shardOf_storeSet_self (st : Store) (d : String) (evs : List Event) :
    shardOf (storeSet st d evs) d = evs := by
  simp [shardOf, storeGet_storeSet_self]

theorem shardOf_storeSet_ne (st : Store) {d d2 : String} (evs : List Event)
    (h : d2 ≠ d) : shardOf (storeSet st d evs) d2 = shardOf st d2 := by
  simp [shardOf, storeGet_storeSet_ne st evs h]

theorem storeSet_of_get {st : Store} {d : String} {evs : List Event}
    (h : storeGet st d = some evs) : storeSet st d evs = st := by
  induction st with
  | nil => simp [storeGet] at h
  | cons p rest ih =>
    unfold storeGet at h
    unfold storeSet
    by_cases hp : (p.1 == d) = true
    · rw [if_pos hp] at h
      rw [if_pos hp]
      have hpd : p.1 = d := by simpa using hp
      have hev : evs = p.2 := by injection h with h2; exact h2.symm
      rw [hev, ← hpd]
    · rw [if_neg hp] at h
      rw [if_neg hp, ih h]

theorem storeGet_of_shardOf_ne_nil {st : Store} {d : String}
    (h : shardOf st d ≠ []) : storeGet st d = some (shardOf st d) := by
  unfold shardOf at h ⊢
  cases hg : storeGet st d with
  | none => rw [hg] at h; simp at h
  | some evs => rfl

/-- A generic fold fact: a fold whose every step fixes the accumulator
returns it unchanged. -/
theorem foldl_fixed {α β : Type} (f : β → α → β) (st : β) (l : List α)
    (h : ∀ d ∈ l, f st d = st) : l.foldl f st = st := by
  induction l with
  | nil => rfl
  | cons d ds ih =>
    rw [List.foldl_cons, h d (by simp)]
    exact ih (fun x hx => h x (by simp [hx]))

/-! ## Characterization of `processEvents` -/

theorem shardOf_foldl_mergeDay_not_mem (events : List Event) (dates : List String) :
    ∀ st d2, d2 ∉ dates →
      shardOf (dates.foldl (mergeDay events) st) d2 = shardOf st d2 := by
  induction dates with
  | nil => intro st d2 _; rfl
  | cons d ds ih =>
    intro st d2 hd
    rw [List.foldl_cons]
    have hne : d2 ≠ d := fun he => hd (by simp [he])
    rw [ih _ _ (fun hm => hd (by simp [hm]))]
    unfold mergeDay
    exact shardOf_storeSet_ne st _ hne

theorem shardOf_foldl_mergeDay_mem (events : List Event) (dates : List String) :
    ∀ st d, dates.Nodup → d ∈ dates →
      shardOf (dates.foldl (mergeDay events) st) d =
        mergeShard (shardOf st d) (events.filter (fun e => eventDate e == d)) := by
  induction dates with
  | nil => intro st d _ h; simp at h
  | cons d0 ds ih =>
    intro st d hnd hd
    rw [List.foldl_cons]
    rcases List.mem_cons.mp hd with rfl | hd2
    · have hnotin : d ∉ ds := (List.nodup_cons.mp hnd).1
      rw [shardOf_foldl_mergeDay_not_mem events ds _ _ hnotin]
      unfold mergeDay
      exact shardOf_storeSet_self st d _
    · have hne : d ≠ d0 := by
        rintro rfl
        exact (List.nodup_cons.mp hnd).1 hd2
      rw [ih _ _ (List.nodup_cons.mp hnd).2 hd2]
      unfold mergeDay
      rw [shardOf_storeSet_ne _ _ hne]

theorem shardOf_processEvents (st : Store) (events : List Event) (d : String) :
    shardOf (processEvents st events) d =
      if d ∈ (events.map eventDate).dedup then
        mergeShard (shardOf st d) (events.filter (fun e => eventDate e == d))
      else shardOf st d := by
  unfold processEvents
  split
  · rename_i hmem
    exact shardOf_foldl_mergeDay_mem events _ st d (List.nodup_dedup _) hmem
  · rename_i hmem
    exact shardOf_foldl_mergeDay_not_mem events _ st d hmem

theorem mem_ids_filter_date {events : List Event} {d i : String} :
    i ∈ ids (events.filter (fun e => eventDate e == d)) ↔
      ∃ e ∈ events, e.id = i ∧ eventDate e = d := by
  rw [mem_ids_iff]
  constructor
  · rintro ⟨x, hx, rfl⟩
    rcases List.mem_filter.mp hx with ⟨hxe, hxd⟩
    exact ⟨x, hxe, rfl, by simpa using hxd⟩
  · rintro ⟨e, he, rfl, hd⟩
    exact ⟨e, List.mem_filter.mpr ⟨he, by simpa using hd⟩, rfl⟩

theorem mem_ids_shardOf_processEvents {st : Store} {events : List Event} {d i : String} :
    i ∈ ids (shardOf (processEvents st events) d) ↔
      i ∈ ids (shardOf st d) ∨ ∃ e ∈ events, e.id = i ∧ eventDate e = d := by
  rw [shardOf_processEvents]
  split
  · rw [mem_ids_mergeShard, mem_ids_filter_date]
  · rename_i hmem
    constructor
    · exact Or.inl
    · rintro (h | ⟨e, he, rfl, hd⟩)
      · exact h
      · exact absurd (List.mem_dedup.mpr (List.mem_map.mpr ⟨e, he, hd⟩)) hmem

theorem wfShards_nil : WfShards [] := by
  intro d
  constructor <;> simp [shardOf, storeGet, ids]

theorem wfShards_processEvents {st : Store} (events : List Event)
    (h : WfShards st) : WfShards (processEvents st events) := by
  intro d
  rw [shardOf_processEvents]
  split
  · exact ⟨pairwise_mergeShard _ _, nodup_ids_mergeShard _ _⟩
  · exact h d

theorem wfShards_foldl_processEvents (batches : List (List Event)) :
    ∀ st, WfShards st → WfShards (batches.foldl processEvents st) := by
  induction batches with
  | nil => intro st h; exact h
  | cons b bs ih =>
    intro st h
    rw [List.foldl_cons]
    exact ih _ (wfShards_processEvents b h)

theorem mem_ids_foldl_processEvents (batches : List (List Event)) :
    ∀ st (d i : String),
      i ∈ ids (shardOf (batches.foldl processEvents st) d) ↔
        i ∈ ids (shardOf st d) ∨ batchesHaveId batches d i := by
  induction batches with
  | nil => intro st d i; simp [batchesHaveId]
  | cons b bs ih =>
    intro st d i
    rw [List.foldl_cons, ih, mem_ids_shardOf_processEvents]
    unfold batchesHaveId
    constructor
    · rintro ((h | ⟨e, he, hei, hed⟩) | ⟨b2, hb2, he2⟩)
      · exact Or.inl h
      · exact Or.inr ⟨b, by simp, e, he, hei, hed⟩
      · exact Or.inr ⟨b2, by simp [hb2], he2⟩
    · rintro (h | ⟨b2, hb2, he2⟩)
      · exact Or.inl (Or.inl h)
      · rcases List.mem_cons.mp hb2 with rfl | hb2
        · exact Or.inl (Or.inr he2)
        · exact Or.inr ⟨b2, hb2, he2⟩

/-- Merging a batch each of whose events is already stored verbatim in the
day shard of its own date leaves the store unchanged. -/
theorem processEvents_of_subset {st : Store} {batch : List Event}
    (hwf : WfShards st) (hsub : ∀ e ∈ batch, e ∈ shardOf st (eventDate e)) :
    processEvents st batch = st := by
  unfold processEvents
  apply foldl_fixed
  intro d hd
  rcases List.mem_map.mp (List.mem_dedup.mp hd) with ⟨e0, he0, hde0⟩
  have hfilter_sub : ∀ e ∈ batch.filter (fun e => eventDate e == d), e ∈ shardOf st d := by
    intro e he
    rcases List.mem_filter.mp he with ⟨hee, hed⟩
    have hde : eventDate e = d := by simpa using hed
    rw [← hde]
    exact hsub e hee
  have he0s : e0 ∈ shardOf st d := by
    rw [← hde0]
    exact hsub e0 he0
  have hne : shardOf st d ≠ [] := by
    intro hnil
    rw [hnil] at he0s
    exact absurd he0s (List.not_mem_nil e0)
  unfold mergeDay
  rw [mergeShard_of_subset (hwf d).2 (hwf d).1 hfilter_sub]
  exact storeSet_of_get (storeGet_of_shardOf_ne_nil hne)

/-! ## Lemmas about the filename sanitizer -/

theorem mem_replaceUnsafe {c : Char} {l : List Char} (h : c ∈ replaceUnsafe l) :
    c = '_' ∨ (c ∈ l ∧ unsafeChar c = false) := by
  rcases List.mem_map.mp h with ⟨a, ha, hac⟩
  by_cases hu : unsafeChar a = true
  · left
    rw [← hac, if_pos hu]
  · right
    rw [← hac, if_neg hu]
    exact ⟨ha, by simpa using hu⟩

theorem no_unsafe_sanitized {c : Char} {l : List Char} (h : c ∈ replaceUnsafe l) :
    unsafeChar c = false := by
  rcases mem_replaceUnsafe h with rfl | ⟨_, hc⟩
  · decide
  · exact hc

theorem replaceUnsafe_id {l : List Char} (h : ∀ c ∈ l, unsafeChar c = false) :
    replaceUnsafe l = l := by
  unfold replaceUnsafe
  conv_rhs => rw [← List.map_id l]
  refine List.map_congr_left fun c hc => ?_
  show (if unsafeChar c = true then '_' else c) = c
  rw [if_neg (by simp [h c hc])]

theorem mem_collapseAux {c : Char} : ∀ (b : Bool) (l : List Char),
    c ∈ collapseAux b l → c ∈ l := by
  intro b l
  induction l generalizing b with
  | nil => intro h; simp [collapseAux] at h
  | cons x rest ih =>
    intro h
    unfold collapseAux at h
    by_cases hx : x = '_'
    · rw [if_pos hx] at h
      cases b with
      | true =>
        rw [if_pos rfl] at h
        exact List.mem_cons_of_mem x (ih true h)
      | false =>
        rw [if_neg (by decide)] at h
        rcases List.mem_cons.mp h with rfl | h
        · simp [hx]
        · exact List.mem_cons_of_mem x (ih true h)
    · rw [if_neg hx] at h
      rcases List.mem_cons.mp h with rfl | h
      · simp
      · exact List.mem_cons_of_mem x (ih false h)

theorem collapseAux_true_head : ∀ {l : List Char} {c : Char},
    (collapseAux true l).head? = some c → c ≠ '_' := by
  intro l
  induction l with
  | nil => intro c h; simp [collapseAux] at h
  | cons x rest ih =>
    intro c h
    unfold collapseAux at h
    by_cases hx : x = '_'
    · rw [if_pos hx, if_pos rfl] at h
      exact ih h
    · rw [if_neg hx] at h
      simp only [List.head?_cons, Option.some.injEq] at h
      rw [← h]
      exact hx

theorem chain_collapseAux : ∀ (b : Bool) (l : List Char),
    NoDoubleUnderscore (collapseAux b l) := by
  intro b l
  induction l generalizing b with
  | nil => simp [collapseAux, NoDoubleUnderscore]
  | cons x rest ih =>
    unfold NoDoubleUnderscore collapseAux
    by_cases hx : x = '_'
    · rw [if_pos hx]
      cases b with
      | true =>
        rw [if_pos rfl]
        exact ih true
      | false =>
        rw [if_neg (by decide)]
        rw [List.chain'_cons']
        refine ⟨?_, ih true⟩
        intro y hy
        have hne : y ≠ '_' := collapseAux_true_head (Option.mem_def.mp hy)
        rintro ⟨_, h2⟩
        exact hne h2
    · rw [if_neg hx]
      rw [List.chain'_cons']
      refine ⟨?_, ih false⟩
      intro y hy
      rintro ⟨h1, _⟩
      exact hx h1

theorem collapseAux_id : ∀ (b : Bool) (l : List Char), NoDoubleUnderscore l →
    (b = true → l.head? ≠ some '_') → collapseAux b l = l := by
  intro b l
  induction l generalizing b with
  | nil => intro _ _; rfl
  | cons x rest ih =>
    intro hc hh
    unfold collapseAux
    by_cases hx : x = '_'
    · rw [if_pos hx]
      cases b with
      | true =>
        exact absurd (by rw [List.head?_cons, hx]) (hh rfl)
      | false =>
        rw [if_neg (by decide)]
        subst hx
        congr 1
        apply ih true (List.chain'_cons'.mp hc).2
        intro _ hsome
        have := (List.chain'_cons'.mp hc).1 '_' (Option.mem_def.mpr hsome)
        exact this ⟨rfl, rfl⟩
    · rw [if_neg hx]
      congr 1
      exact ih false (List.chain'_cons'.mp hc).2 (fun h => Bool.noConfusion h)

theorem head_dropWhile_false {p : Char → Bool} : ∀ {l : List Char} {c : Char},
    (l.dropWhile p).head? = some c → p c = false := by
  intro l
  induction l with
  | nil => intro c h; simp [List.dropWhile] at h
  | cons x rest ih =>
    intro c h
    rw [List.dropWhile_cons] at h
    by_cases hp : p x = true
    · rw [if_pos hp] at h
      exact ih h
    · rw [if_neg hp] at h
      simp only [List.head?_cons, Option.some.injEq] at h
      rw [← h]
      simpa using hp

theorem dropWhile_eq_self_of_head {p : Char → Bool} {l : List Char}
    (h : ∀ c, l.head? = some c → p c = false) : l.dropWhile p = l := by
  cases l with
  | nil => rfl
  | cons x rest =>
    rw [List.dropWhile_cons, if_neg (by simp [h x rfl])]

theorem chain_dropWhile {R : Char → Char → Prop} {p : Char → Bool} :
    ∀ {l : List Char}, List.Chain' R l → List.Chain' R (l.dropWhile p) := by
  intro l
  induction l with
  | nil => intro h; exact h
  | cons x rest ih =>
    intro h
    rw [List.dropWhile_cons]
    split
    · exact ih h.tail
    · exact h

theorem trimRight_head {x : List Char} (hne : trimRight x ≠ []) :
    (trimRight x).head? = x.head? := by
  unfold trimRight at hne ⊢
  rcases List.dropWhile_suffix (l := x.reverse) trimCutset with ⟨t, ht⟩
  have hx : x = (List.dropWhile trimCutset x.reverse).reverse ++ t.reverse := by
    have h2 := congrArg List.reverse ht
    simpa [List.reverse_append] using h2.symm
  conv_rhs => rw [hx]
  cases hrev : (List.dropWhile trimCutset x.reverse).reverse with
  | nil => exact absurd hrev hne
  | cons y ys => simp

theorem trimBoth_head {l : List Char} {c : Char}
    (h : (trimBoth l).head? = some c) : trimCutset c = false := by
  unfold trimBoth at h
  have hne : trimRight (trimLeft l) ≠ [] := by
    intro he
    rw [he] at h
    simp at h
  rw [trimRight_head hne] at h
  exact head_dropWhile_false h

theorem trimBoth_getLast {l : List Char} {c : Char}
    (h : (trimBoth l).getLast? = some c) : trimCutset c = false := by
  unfold trimBoth trimRight at h
  rw [List.getLast?_reverse] at h
  exact head_dropWhile_false h

theorem trimBoth_id {l : List Char}
    (hh : ∀ c, l.head? = some c → trimCutset c = false)
    (hl : ∀ c, l.getLast? = some c → trimCutset c = false) : trimBoth l = l := by
  unfold trimBoth trimLeft trimRight
  rw [dropWhile_eq_self_of_head hh]
  rw [dropWhile_eq_self_of_head (fun c hc => hl c (by rwa [← List.head?_reverse]))]
  exact List.reverse_reverse l

theorem mem_trimBoth {c : Char} {l : List Char} (h : c ∈ trimBoth l) : c ∈ l := by
  unfold trimBoth trimRight trimLeft at h
  have h1 := List.mem_reverse.mp h
  have h2 := (List.dropWhile_sublist _).mem h1
  have h3 := List.mem_reverse.mp h2
  exact (List.dropWhile_sublist _).mem h3

theorem chain_trimBoth {l : List Char} (h : NoDoubleUnderscore l) :
    NoDoubleUnderscore (trimBoth l) := by
  unfold NoDoubleUnderscore at h ⊢
  unfold trimBoth trimRight trimLeft
  apply List.chain'_reverse.mpr
  apply chain_dropWhile
  apply List.chain'_reverse.mpr
  exact chain_dropWhile h

/-! ## Assembled sanitizer facts -/

theorem sanitizeCore_ne_nil (l : List Char) : sanitizeCore l ≠ [] := by
  unfold sanitizeCore
  split
  · simp
  · rename_i h
    simpa [List.isEmpty_iff] using h

theorem mem_sanitizeCore {c : Char} {l : List Char} (h : c ∈ sanitizeCore l) :
    c = '_' ∨ (c ∈ l ∧ unsafeChar c = false) := by
  unfold sanitizeCore at h
  split at h
  · rcases List.mem_singleton.mp h with rfl
    exact Or.inl rfl
  · exact mem_replaceUnsafe (mem_collapseAux false _ (mem_trimBoth h))

theorem no_unsafe_sanitizeCore {c : Char} {l : List Char} (h : c ∈ sanitizeCore l) :
    unsafeChar c = false := by
  rcases mem_sanitizeCore h with rfl | ⟨_, hc⟩
  · decide
  · exact hc

theorem sanitizeCore_of_normal {l : List Char}
    (hu : ∀ c ∈ l, unsafeChar c = false)
    (hc : NoDoubleUnderscore l)
    (hh : ∀ c, l.head? = some c → trimCutset c = false)
    (hl : ∀ c, l.getLast? = some c → trimCutset c = false)
    (hne : l ≠ []) : sanitizeCore l = l := by
  unfold sanitizeCore
  rw [replaceUnsafe_id hu, collapseAux_id false l hc (fun h => Bool.noConfusion h),
    trimBoth_id hh hl]
  rw [if_neg (by simpa [List.isEmpty_iff] using hne)]

theorem sanitizeCore_idem (l : List Char) :
    sanitizeCore (sanitizeCore l) = sanitizeCore l := by
  by_cases hempty : (trimBoth (collapseAux false (replaceUnsafe l))).isEmpty = true
  · have hval : sanitizeCore l = ['_'] := by
      unfold sanitizeCore
      rw [if_pos hempty]
    rw [hval]
    decide
  · have hval : sanitizeCore l = trimBoth (collapseAux false (replaceUnsafe l)) := by
      unfold sanitizeCore
      rw [if_neg hempty]
    apply sanitizeCore_of_normal
    · intro c hcmem
      exact no_unsafe_sanitizeCore hcmem
    · rw [hval]
      exact chain_trimBoth (chain_collapseAux false _)
    · intro c hch
      rw [hval] at hch
      exact trimBoth_head hch
    · intro c hcl
      rw [hval] at hcl
      exact trimBoth_getLast hcl
    · exact sanitizeCore_ne_nil l

/-! ## Lemmas about the fetch loop -/

theorem fetchLoop_disk (resps : List PageResp) :
    ∀ store dk tok total, (fetchLoop store dk tok total resps).diskToken = dk := by
  induction resps with
  | nil => intro store dk tok total; rfl
  | cons p rest ih =>
    intro store dk tok total
    simp only [fetchLoop]
    split_ifs <;> simp [ih]

theorem fetchLoop_trace_disk (resps : List PageResp) :
    ∀ store dk tok total e,
      e ∈ (fetchLoop store dk tok total resps).trace → e.2 = dk := by
  induction resps with
  | nil => intro store dk tok total e he; simp [fetchLoop] at he
  | cons p rest ih =>
    intro store dk tok total e he
    simp only [fetchLoop] at he
    split_ifs at he <;>
      first
      | (rw [List.mem_singleton.mp he])
      | (rcases List.mem_cons.mp (by simpa using he) with h2 | h2
         · rw [h2]
         · exact ih _ _ _ _ _ h2)

theorem fetchLoop_token_reachable (resps : List PageResp) :
    ∀ store dk tok total,
      Reachable tok resps (fetchLoop store dk tok total resps).token := by
  induction resps with
  | nil =>
    intro store dk tok total
    exact ⟨[], [], rfl, Advances.nil tok⟩
  | cons p rest ih =>
    intro store dk tok total
    simp only [fetchLoop]
    split_ifs with h1 h2 h3 h4
    · exact ⟨[], p :: rest, rfl, Advances.nil tok⟩
    · exact ⟨[], p :: rest, rfl, Advances.nil tok⟩
    · exact ⟨[], p :: rest, rfl, Advances.nil tok⟩
    · exact ⟨[], p :: rest, rfl, Advances.nil tok⟩
    · rcases ih (processEvents store p.chunk) dk p.endTok (total + p.chunk.length) with
        ⟨pre, rest2, heq, hadv⟩
      refine ⟨p :: pre, rest2, by simp [heq], ?_⟩
      refine Advances.cons tok p pre _ ?_ ?_ ?_ ?_ hadv
      · simpa using h1
      · intro hnil
        exact h2 (by simp [hnil])
      · simpa using h3
      · intro he
        exact h4 (by simp [he])

theorem reachable_self (tok : String) (resps : List PageResp) :
    Reachable tok resps tok :=
  ⟨[], resps, rfl, Advances.nil tok⟩

theorem fetchLoop_mergeFail (pre : List PageResp) :
    ∀ tok tokAdv store dk total pfail rest,
      Advances tok pre tokAdv →
      pfail.fetchErr = false → pfail.chunk ≠ [] → pfail.mergeErr = true →
      (fetchLoop store dk tok total (pre ++ pfail :: rest)).exit = LoopExit.mergeFail ∧
        (fetchLoop store dk tok total (pre ++ pfail :: rest)).token = tokAdv := by
  induction pre with
  | nil =>
    intro tok tokAdv store dk total pfail rest hadv h1 h2 h3
    cases hadv
    simp only [List.nil_append, fetchLoop]
    rw [if_neg (by simp [h1]), if_neg (by simp [List.isEmpty_iff, h2]), if_pos h3]
    exact ⟨rfl, rfl⟩
  | cons p pre ih =>
    intro tok tokAdv store dk total pfail rest hadv h1 h2 h3
    cases hadv with
    | cons _ _ _ _ hf hc hm hne hadv2 =>
      simp only [List.cons_append, fetchLoop]
      rw [if_neg (by simp [hf]), if_neg (by simp [List.isEmpty_iff, hc]),
        if_neg (by simp [hm]), if_neg (by simp [hne])]
      have hrec := ih p.endTok tokAdv (processEvents store p.chunk) dk
        (total + p.chunk.length) pfail rest hadv2 h1 h2 h3
      simpa using hrec

theorem updateMetadataToken_save_ok (dk new : String) :
    updateMetadataToken dk new false = new := by
  unfold updateMetadataToken
  by_cases h : new = dk
  · subst h
    simp
  · rw [if_pos (by simpa [bne] using h), if_neg (by simp)]

/-! ## Lemmas about directory-key extraction -/

theorem extractRoomID_contains {l : List Char} :
    ∀ {r : List Char}, extractRoomID l = some r → containsColonBang l = true := by
  induction l with
  | nil => intro r h; simp [extractRoomID] at h
  | cons c rest ih =>
    intro r h
    unfold extractRoomID at h
    unfold containsColonBang
    cases hrec : extractRoomID rest with
    | some r2 =>
      split
      · rfl
      · exact ih hrec
    | none =>
      rw [hrec] at h
      have h2 : (if c = ':' ∧ rest.head? = some '!' then some rest else none) = some r := h
      split at h2
      · rename_i hcond
        rw [if_pos hcond]
      · simp at h2

theorem extractRoomID_none {l : List Char} (h : containsColonBang l = false) :
    extractRoomID l = none := by
  induction l with
  | nil => rfl
  | cons c rest ih =>
    unfold containsColonBang at h
    split at h
    · exact absurd h (by simp)
    · rename_i hcond
      unfold extractRoomID
      rw [ih h]
      rw [if_neg hcond]

theorem extractRoomID_append {tail r : List Char} (h : extractRoomID tail = some r) :
    ∀ pre, extractRoomID (pre ++ tail) = some r := by
  intro pre
  induction pre with
  | nil => simpa using h
  | cons c pre2 ih =>
    show extractRoomID (c :: (pre2 ++ tail)) = some r
    unfold extractRoomID
    rw [ih]

theorem extractRoomID_junction {rid : List Char} (hh : rid.head? = some '!')
    (hnone : extractRoomID rid = none) :
    extractRoomID (':' :: rid) = some rid := by
  unfold extractRoomID
  rw [hnone, if_pos ⟨rfl, hh⟩]

/-! ## Injectivity of the date formatting -/

theorem digitChar_inj {a b : Nat} (ha : a ≤ 9) (hb : b ≤ 9)
    (h : digitChar a = digitChar b) : a = b := by
  interval_cases a <;> interval_cases b <;>
    first
    | rfl
    | exact absurd h (by decide)

theorem formatCivil_inj {c1 c2 : Int × Int × Int}
    (h1 : civilInRange c1) (h2 : civilInRange c2)
    (h : formatCivil c1 = formatCivil c2) : c1 = c2 := by
  obtain ⟨y1, m1, d1⟩ := c1
  obtain ⟨y2, m2, d2⟩ := c2
  unfold civilInRange at h1 h2
  dsimp only at h1 h2
  obtain ⟨hy1a, hy1b, hm1a, hm1b, hd1a, hd1b⟩ := h1
  obtain ⟨hy2a, hy2b, hm2a, hm2b, hd2a, hd2b⟩ := h2
  unfold formatCivil pad4 pad2 at h
  have hl := congrArg String.data h
  simp only [List.cons_append, List.nil_append, List.cons.injEq, and_true] at hl
  obtain ⟨e1, e2, e3, e4, _, e5, e6, _, e7, e8⟩ := hl
  have hy : y1.toNat = y2.toNat := by
    have b1 : y1.toNat ≤ 9999 := by omega
    have b2 : y2.toNat ≤ 9999 := by omega
    have q1 := digitChar_inj (by omega) (by omega) e1
    have q2 := digitChar_inj (by omega) (by omega) e2
    have q3 := digitChar_inj (by omega) (by omega) e3
    have q4 := digitChar_inj (by omega) (by omega) e4
    omega
  have hm : m1.toNat = m2.toNat := by
    have q1 := digitChar_inj (by omega) (by omega) e5
    have q2 := digitChar_inj (by omega) (by omega) e6
    omega
  have hd : d1.toNat = d2.toNat := by
    have q1 := digitChar_inj (by omega) (by omega) e7
    have q2 := digitChar_inj (by omega) (by omega) e8
    omega
  have hyy : y1 = y2 := by omega
  have hmm : m1 = m2 := by omega
  have hdd : d1 = d2 := by omega
  simp [hyy, hmm, hdd]

theorem updateMetadataToken_save_fail (dk new : String) :
    updateMetadataToken dk new true = dk := by
  unfold updateMetadataToken
  split
  · rfl
  · rfl

theorem backupRun_eq (store0 : Store) (init : String) (resps : List PageResp)
    (saveFails migErr : Bool) :
    backupRun store0 init resps saveFails migErr =
      (if (fetchLoop store0 init init 0 resps).exit = LoopExit.ok then
        { fetchLoop store0 init init 0 resps with
          diskToken := updateMetadataToken (fetchLoop store0 init init 0 resps).diskToken
            (fetchLoop store0 init init 0 resps).token saveFails }
      else fetchLoop store0 init init 0 resps) :=
  rfl

/-! ## Claim theorems -/

/-- C2: for every Day-Shard and every sequence of batches merged into it
(starting from the empty partition store), the persisted shard contents
are the union of all merged batches deduplicated by event id — an id is
stored for day `d` iff some batch has an event with that id whose
timestamp falls on `d`, and no id appears twice — sorted ascending by
`timestampMillis`.  Concretely, merging batch A = [(e1,100), (e2,100)]
then batch B = [(e1,100), (e3,200)] yields exactly 3 stored events for day
1970-01-01, sorted ascending by timestamp, with no duplicate id. -/
theorem c2_dayshard_union_dedup_sorted :
    (∀ (batches : List (List Event)) (d : String),
        List.Pairwise tsLE (shardOf (batches.foldl processEvents []) d) ∧
        (ids (shardOf (batches.foldl processEvents []) d)).Nodup ∧
        (∀ i, i ∈ ids (shardOf (batches.foldl processEvents []) d) ↔
          batchesHaveId batches d i)) ∧
    ((shardOf (processEvents (processEvents [] batchA) batchB) "1970-01-01").length = 3 ∧
      ids (shardOf (processEvents (processEvents [] batchA) batchB) "1970-01-01") =
        ["e1", "e2", "e3"] ∧
      List.Pairwise tsLE
        (shardOf (processEvents (processEvents [] batchA) batchB) "1970-01-01")) := by
  have hgen : ∀ (batches : List (List Event)) (d : String),
      List.Pairwise tsLE (shardOf (batches.foldl processEvents []) d) ∧
      (ids (shardOf (batches.foldl processEvents []) d)).Nodup ∧
      (∀ i, i ∈ ids (shardOf (batches.foldl processEvents []) d) ↔
        batchesHaveId batches d i) := by
    intro batches d
    refine ⟨(wfShards_foldl_processEvents batches [] wfShards_nil d).1,
      (wfShards_foldl_processEvents batches [] wfShards_nil d).2, ?_⟩
    intro i
    rw [mem_ids_foldl_processEvents]
    simp [shardOf, storeGet, ids]
  refine ⟨hgen, by decide, by decide, ?_⟩
  exact (hgen [batchA, batchB] "1970-01-01").1

/-- C2 witness: the general conjunct applied at a concrete one-batch
sequence and its day. -/
theorem c2_witness :
    (ids (shardOf ([[⟨"a", 5, ""⟩]].foldl processEvents []) (dateStr 5))).Nodup ∧
    ("a" ∈ ids (shardOf ([[⟨"a", 5, ""⟩]].foldl processEvents []) (dateStr 5)) ↔
      batchesHaveId [[⟨"a", 5, ""⟩]] (dateStr 5) "a") :=
  ⟨(c2_dayshard_union_dedup_sorted.1 [[⟨"a", 5, ""⟩]] (dateStr 5)).2.1,
   (c2_dayshard_union_dedup_sorted.1 [[⟨"a", 5, ""⟩]] (dateStr 5)).2.2 "a"⟩

/-- C3 counterexample: the claim quantifies over batches whose event ids
form a subset of the stored ids.  Merge is last-write-wins on id
collision, so a batch event carrying a stored id but a different
timestamp (here 43200000, still on day 1970-01-01, versus the stored 100)
replaces the stored event and changes the Day-Shard contents, refuting
"produces no change" for the id-subset hypothesis. -/
theorem c3_counterexample :
    ids (shardOf (processEvents [] [⟨"e1", 100, ""⟩]) "1970-01-01") = ["e1"] ∧
    ids [(⟨"e1", 43200000, ""⟩ : Event)] = ["e1"] ∧
    eventDate (⟨"e1", 43200000, ""⟩ : Event) = "1970-01-01" ∧
    processEvents (processEvents [] [⟨"e1", 100, ""⟩]) [⟨"e1", 43200000, ""⟩] ≠
      processEvents [] [⟨"e1", 100, ""⟩] :=
  ⟨by decide, by decide, by decide, by decide⟩

/-- C3 amended: re-running merge with a batch each of whose events is
already stored verbatim (same id, timestamp and payload) in the Day-Shard
of its own date produces no change: the store is returned unchanged.  The
strengthening from "ids form a subset" to "events are already stored" is
forced by the last-write-wins collision policy, as the counterexample
shows. -/
theorem c3_merge_idempotent (st : Store) (batch : List Event)
    (hwf : WfShards st)
    (hsub : ∀ e ∈ batch, e ∈ shardOf st (eventDate e)) :
    processEvents st batch = st :=
  processEvents_of_subset hwf hsub

/-- C3 witness: re-merging the exact stored event is a no-op. -/
theorem c3_witness :
    processEvents (processEvents [] [⟨"e1", 100, ""⟩]) [⟨"e1", 100, ""⟩] =
      processEvents [] [⟨"e1", 100, ""⟩] :=
  c3_merge_idempotent (processEvents [] [⟨"e1", 100, ""⟩]) [⟨"e1", 100, ""⟩]
    (wfShards_processEvents _ wfShards_nil) (by decide)

/-- C8: the filename sanitizer is total — for every input string
(including the empty string and strings of only unsafe or separator
characters) it returns a non-empty string; it is idempotent on every
input; every non-underscore character of the output is a character of the
input outside the unsafe set (characters that survive collapsing and
trimming are preserved); and a safe input already in normal form is
returned entirely unchanged. -/
theorem c8_sanitizer_total_idempotent :
    (∀ s : String, sanitizeFilename s ≠ "") ∧
    (∀ s : String, sanitizeFilename (sanitizeFilename s) = sanitizeFilename s) ∧
    (∀ (s : String) (c : Char), c ∈ (sanitizeFilename s).data →
      c = '_' ∨ (c ∈ s.data ∧ unsafeChar c = false)) ∧
    (∀ s : String, (∀ c ∈ s.data, unsafeChar c = false) →
      NoDoubleUnderscore s.data →
      (∀ c, s.data.head? = some c → trimCutset c = false) →
      (∀ c, s.data.getLast? = some c → trimCutset c = false) →
      s ≠ "" → sanitizeFilename s = s) := by
  refine ⟨?_, ?_, ?_, ?_⟩
  · intro s h
    have hdata : sanitizeCore s.data = [] := by
      have h2 := congrArg String.data h
      simpa [sanitizeFilename] using h2
    exact sanitizeCore_ne_nil _ hdata
  · intro s
    show String.mk (sanitizeCore (String.mk (sanitizeCore s.data)).data) =
      String.mk (sanitizeCore s.data)
    rw [show (String.mk (sanitizeCore s.data)).data = sanitizeCore s.data from rfl,
      sanitizeCore_idem]
  · intro s c hc
    exact mem_sanitizeCore hc
  · intro s hu hnd hh hl hne
    show String.mk (sanitizeCore s.data) = s
    rw [sanitizeCore_of_normal hu hnd hh hl
      (fun hnil => hne (String.ext (hnil.trans rfl)))]

/-- C8 witness: the conjuncts applied at concrete inputs. -/
theorem c8_witness :
    sanitizeFilename "" ≠ "" ∧
    sanitizeFilename (sanitizeFilename "a__b? ") = sanitizeFilename "a__b? " ∧
    sanitizeFilename "ab" = "ab" :=
  ⟨c8_sanitizer_total_idempotent.1 "",
   c8_sanitizer_total_idempotent.2.1 "a__b? ",
   c8_sanitizer_total_idempotent.2.2.2 "ab" (by decide)
     (by unfold NoDoubleUnderscore; simp) (by decide) (by decide) (by decide)⟩

/-- C9: events whose millisecond timestamps fall on different UTC calendar
dates are stored in different day buckets — when the two civil dates
differ (within the 4-digit-year regime of the `YYYY-MM-DD` format, which
covers every realistic timestamp) the bucket keys differ; in particular an
event at 2024-01-15T23:59:59.999Z goes to bucket 2024-01-15 and an event
at 2024-01-16T00:00:00.000Z goes to bucket 2024-01-16. -/
theorem c9_day_bucketing :
    (∀ t1 t2 : Int, civilInRange (civilFromMillis t1) →
      civilInRange (civilFromMillis t2) →
      civilFromMillis t1 ≠ civilFromMillis t2 → dateStr t1 ≠ dateStr t2) ∧
    dateStr 1705363199999 = "2024-01-15" ∧ dateStr 1705363200000 = "2024-01-16" := by
  refine ⟨?_, by decide, by decide⟩
  intro t1 t2 h1 h2 hne heq
  exact hne (formatCivil_inj h1 h2 heq)

/-- C9 witness: the two reference timestamps indeed land in different
buckets. -/
theorem c9_witness : dateStr 1705363199999 ≠ dateStr 1705363200000 :=
  c9_day_bucketing.1 1705363199999 1705363200000 (by unfold civilInRange; decide)
    (by unfold civilInRange; decide) (by decide)

/-- C10: for every label and every room id beginning with the sentinel
character and containing no occurrence of the separator sequence, taking
the substring after the last occurrence of the separator (keeping the
sentinel) in the directory key sanitize(label) + separator + roomID
recovers the room id exactly; moreover the sanitizer replaces every colon,
so the sanitized label never contains the separator character. -/
theorem c10_directory_key_roundtrip (label : String) (rid : List Char)
    (hh : rid.head? = some '!') (hnc : containsColonBang rid = false) :
    extractRoomID ((sanitizeFilename label).data ++ ':' :: rid) = some rid ∧
    ∀ c ∈ (sanitizeFilename label).data, c ≠ ':' := by
  constructor
  · exact extractRoomID_append (extractRoomID_junction hh (extractRoomID_none hnc)) _
  · intro c hc hcolon
    have hsafe := no_unsafe_sanitizeCore (l := label.data)
      (by simpa [sanitizeFilename] using hc)
    rw [hcolon] at hsafe
    exact absurd hsafe (by decide)

/-- C10 witness: a Matrix-style room id with a label containing a colon. -/
theorem c10_witness :
    extractRoomID ((sanitizeFilename "My:Room").data ++ ':' :: "!abc:server.org".data) =
      some "!abc:server.org".data :=
  (c10_directory_key_roundtrip "My:Room" "!abc:server.org".data (by decide) (by decide)).1

/-- C1 counterexample: a run over two successfully merged pages followed
by the empty terminating page.  The trace lists, for every request, the
requested token and the on-disk checkpoint at the moment of the request:
the second request is issued from token "T1" (proving page one was merged
and the loop advanced), yet the on-disk checkpoint still holds the initial
"" rather than "T1" — the checkpoint is not persisted after every
successfully processed page, only once after the loop. -/
theorem c1_counterexample :
    (backupRun [] "" [⟨false, [evE1], "T1", false⟩, ⟨false, [evE2], "T2", false⟩,
        ⟨false, [], "", false⟩] false false).trace =
      [("", ""), ("T1", ""), ("T2", "")] ∧
    ("T1" : String) ≠ "" ∧
    (backupRun [] "" [⟨false, [evE1], "T1", false⟩, ⟨false, [evE2], "T2", false⟩,
        ⟨false, [], "", false⟩] false false).exit = LoopExit.ok :=
  ⟨by decide, by decide, by decide⟩

/-- C1 amended: the checkpoint is persisted once per partition run, after
the fetch loop finishes, not after every page: (a) at every request of the
loop the on-disk value still holds the initial token; (b) when the loop
terminates normally and the save succeeds, the persisted value is the
loop's final token; (c) after a fetch or merge failure nothing is
persisted; (d) in all cases the persisted value is a token reached only
through successfully merged, token-advancing pages — never advanced past a
page whose events have not been durably merged. -/
theorem c1_checkpoint_persistence (store0 : Store) (init : String)
    (resps : List PageResp) (saveFails migErr : Bool) :
    (∀ e ∈ (backupRun store0 init resps saveFails migErr).trace, e.2 = init) ∧
    ((fetchLoop store0 init init 0 resps).exit = LoopExit.ok → saveFails = false →
      (backupRun store0 init resps saveFails migErr).diskToken =
        (fetchLoop store0 init init 0 resps).token) ∧
    ((fetchLoop store0 init init 0 resps).exit = LoopExit.fetchFail ∨
        (fetchLoop store0 init init 0 resps).exit = LoopExit.mergeFail →
      (backupRun store0 init resps saveFails migErr).diskToken = init) ∧
    Reachable init resps (backupRun store0 init resps saveFails migErr).diskToken := by
  have hdisk : (fetchLoop store0 init init 0 resps).diskToken = init :=
    fetchLoop_disk resps store0 init init 0
  refine ⟨?_, ?_, ?_, ?_⟩
  · intro e he
    rw [backupRun_eq] at he
    split_ifs at he
    · exact fetchLoop_trace_disk resps store0 init init 0 e he
    · exact fetchLoop_trace_disk resps store0 init init 0 e he
  · intro hok hsf
    rw [backupRun_eq, if_pos hok]
    show updateMetadataToken (fetchLoop store0 init init 0 resps).diskToken
      (fetchLoop store0 init init 0 resps).token saveFails = _
    rw [hsf, updateMetadataToken_save_ok]
  · intro hfail
    rw [backupRun_eq, if_neg ?_]
    · exact hdisk
    · rcases hfail with h | h <;> rw [h] <;> intro hc <;> exact LoopExit.noConfusion hc
  · rw [backupRun_eq]
    split_ifs with hok
    · show Reachable init resps (updateMetadataToken (fetchLoop store0 init init 0 resps).diskToken
        (fetchLoop store0 init init 0 resps).token saveFails)
      cases saveFails with
      | true =>
        rw [updateMetadataToken_save_fail, hdisk]
        exact reachable_self init resps
      | false =>
        rw [updateMetadataToken_save_ok]
        exact fetchLoop_token_reachable resps store0 init init 0
    · rw [hdisk]
      exact reachable_self init resps

/-- C1 witness: the amended claim at a concrete successful two-page run:
nothing is persisted during the loop, and afterwards the final token is. -/
theorem c1_witness :
    (∀ e ∈ (backupRun [] "" [⟨false, [evE1], "T1", false⟩,
        ⟨false, [], "", false⟩] false false).trace, e.2 = "") ∧
    (backupRun [] "" [⟨false, [evE1], "T1", false⟩,
        ⟨false, [], "", false⟩] false false).diskToken =
      (fetchLoop [] "" "" 0 [⟨false, [evE1], "T1", false⟩,
        ⟨false, [], "", false⟩]).token :=
  ⟨(c1_checkpoint_persistence [] "" [⟨false, [evE1], "T1", false⟩,
      ⟨false, [], "", false⟩] false false).1,
   (c1_checkpoint_persistence [] "" [⟨false, [evE1], "T1", false⟩,
      ⟨false, [], "", false⟩] false false).2.1 (by decide) rfl⟩

/-- C6: when the merge of a fetched page fails, the loop stops with the
merge error and returns the token in effect before the failed page — the
token reached by the successfully merged, token-advancing pages before it,
not the failed page's continuation point — and the run persists nothing:
the on-disk checkpoint keeps its initial value. -/
theorem c6_merge_failure_token (store : Store) (dk tok tokAdv : String) (total : Nat)
    (pre : List PageResp) (pfail : PageResp) (rest : List PageResp)
    (hadv : Advances tok pre tokAdv)
    (hf : pfail.fetchErr = false) (hc : pfail.chunk ≠ []) (hm : pfail.mergeErr = true) :
    (fetchLoop store dk tok total (pre ++ pfail :: rest)).exit = LoopExit.mergeFail ∧
    (fetchLoop store dk tok total (pre ++ pfail :: rest)).token = tokAdv ∧
    (backupRun store tok (pre ++ pfail :: rest) false false).diskToken = tok := by
  obtain ⟨he, ht⟩ := fetchLoop_mergeFail pre tok tokAdv store dk total pfail rest hadv hf hc hm
  obtain ⟨he2, _⟩ := fetchLoop_mergeFail pre tok tokAdv store tok 0 pfail rest hadv hf hc hm
  refine ⟨he, ht, ?_⟩
  rw [backupRun_eq, if_neg (by rw [he2]; intro hcon; exact LoopExit.noConfusion hcon)]
  exact fetchLoop_disk _ _ _ _ _

/-- C6 witness: one successfully merged page advancing "" to "T1", then a
page whose merge fails: the loop reports the merge failure and returns
"T1", not the failed page's continuation point "T2". -/
theorem c6_witness :
    (fetchLoop [] "" "" 0 [⟨false, [evE1], "T1", false⟩,
        ⟨false, [evE2], "T2", true⟩]).exit = LoopExit.mergeFail ∧
    (fetchLoop [] "" "" 0 [⟨false, [evE1], "T1", false⟩,
        ⟨false, [evE2], "T2", true⟩]).token = "T1" ∧
    (backupRun [] "" [⟨false, [evE1], "T1", false⟩,
        ⟨false, [evE2], "T2", true⟩] false false).diskToken = "" :=
  c6_merge_failure_token [] "" "" "T1" 0 [⟨false, [evE1], "T1", false⟩]
    ⟨false, [evE2], "T2", true⟩ []
    (Advances.cons "" ⟨false, [evE1], "T1", false⟩ [] "T1" rfl (by decide) rfl
      (by decide) (Advances.nil "T1"))
    rfl (by decide) rfl

/-- C4: partition migration removes a candidate old directory only when
the merge of its decoded events into the target succeeded or there was
nothing to merge; when the merge fails — fail-fast, with the dates
already written before the failure left persisted and the failing date's
file in whatever state the interrupted operation produced — the directory
is left intact and an error is reported; and the error is non-fatal: the
subsequent sync run is identical whether or not migration reported an
error.  So no candidate directory whose events were not proven merged is
ever removed. -/
theorem c4_migration_delete_after_merge (store : Store) (readDirErr : Bool)
    (files : List OldFile) (mergeFailsAt : Option (Nat × List Event))
    (removeFails : Bool) :
    ((processSingleOldDirectory store readDirErr files mergeFailsAt removeFails).removed
        = true →
      readDirErr = false ∧ ((collectOldEvents files).1 = [] ∨ mergeFailsAt = none)) ∧
    (∀ (k : Nat) (failedShard : List Event), mergeFailsAt = some (k, failedShard) →
      (collectOldEvents files).1 ≠ [] → readDirErr = false →
      (processSingleOldDirectory store readDirErr files mergeFailsAt removeFails).removed
          = false ∧
        (processSingleOldDirectory store readDirErr files mergeFailsAt removeFails).errored
          = true) ∧
    (∀ (store0 : Store) (init : String) (resps : List PageResp) (saveFails : Bool),
      backupRun store0 init resps saveFails true = backupRun store0 init resps saveFails false) := by
  refine ⟨?_, ?_, fun _ _ _ _ => rfl⟩
  · intro hrem
    unfold processSingleOldDirectory at hrem
    by_cases h1 : readDirErr = true
    · rw [if_pos h1] at hrem
      simp at hrem
    · rw [if_neg h1] at hrem
      refine ⟨by simpa using h1, ?_⟩
      by_cases h2 : ((collectOldEvents files).1).isEmpty = true
      · exact Or.inl (List.isEmpty_iff.mp h2)
      · rw [if_neg h2] at hrem
        cases hmf : mergeFailsAt with
        | some kv =>
          obtain ⟨k, fs⟩ := kv
          rw [hmf] at hrem
          simp at hrem
        | none => exact Or.inr rfl
  · intro k fs hmf hne hrd
    subst hrd
    unfold processSingleOldDirectory
    rw [if_neg (by simp), if_neg (by simpa [List.isEmpty_iff] using hne), hmf]
    exact ⟨rfl, rfl⟩

/-- C4 witness: a candidate directory holding one decodable event file
whose merge fails at its first date is kept and reported as an error. -/
theorem c4_witness :
    (processSingleOldDirectory [] false [⟨"data.json", false, false, some [evE1]⟩]
        (some (0, [])) false).removed = false ∧
    (processSingleOldDirectory [] false [⟨"data.json", false, false, some [evE1]⟩]
        (some (0, [])) false).errored = true :=
  (c4_migration_delete_after_merge [] false [⟨"data.json", false, false, some [evE1]⟩]
      (some (0, [])) false).2.1 0 [] rfl (by decide) rfl

/-- C5 counterexample: `writeMetadata` performs exactly one direct
in-place write of the marshaled metadata to the final path — there is no
temporary file and no rename — and a crash after a single character of
that write leaves the file holding just the opening brace, which is
neither the complete old content (token "A") nor the complete new content
(token "B"): a half-written file is observable by a concurrent or
subsequent load. -/
theorem c5_counterexample :
    writeMetadataOps "room" "B" =
      [FsOp.writeFile ("room/" ++ metadataFilename) (marshalMetadata "B")] ∧
    crashObservation (FsOp.writeFile ("room/" ++ metadataFilename) (marshalMetadata "B")) 1 =
      some "\x7b".data ∧
    "\x7b".data ≠ marshalMetadata "A" ∧ "\x7b".data ≠ marshalMetadata "B" :=
  ⟨by decide, by decide, by decide, by decide⟩

/-- C5 amended: checkpoint save is a single direct `os.WriteFile` of the
full marshaled document to the final metadata path — not write-then-rename
— and a crash after `k` characters exposes the `k`-character prefix of the
new content, so an interrupted save can leave a half-written file visible
to `load` (here: the one-character prefix is never the complete file). -/
theorem c5_checkpoint_write_not_atomic (roomPath tok : String) :
    writeMetadataOps roomPath tok =
      [FsOp.writeFile (roomPath ++ "/" ++ metadataFilename) (marshalMetadata tok)] ∧
    (∀ k, crashObservation (FsOp.writeFile (roomPath ++ "/" ++ metadataFilename)
        (marshalMetadata tok)) k = some ((marshalMetadata tok).take k)) ∧
    crashObservation (FsOp.writeFile (roomPath ++ "/" ++ metadataFilename)
        (marshalMetadata tok)) 1 ≠ some (marshalMetadata tok) := by
  refine ⟨rfl, fun k => rfl, ?_⟩
  intro h
  have htake : (marshalMetadata tok).take 1 = marshalMetadata tok := Option.some.inj h
  have hlen1 : ((marshalMetadata tok).take 1).length = (marshalMetadata tok).length := by
    rw [htake]
  have hlen2 : (marshalMetadata tok).length =
      19 + tok.data.length + 3 := by
    unfold marshalMetadata
    rw [List.length_append, List.length_append]
    rfl
  rw [List.length_take, hlen2] at hlen1
  omega

/-- C5 witness: the amended claim at a concrete path and token. -/
theorem c5_witness :
    writeMetadataOps "room" "TOK" =
      [FsOp.writeFile ("room" ++ "/" ++ metadataFilename) (marshalMetadata "TOK")] ∧
    crashObservation (FsOp.writeFile ("room" ++ "/" ++ metadataFilename)
        (marshalMetadata "TOK")) 1 ≠ some (marshalMetadata "TOK") :=
  ⟨(c5_checkpoint_write_not_atomic "room" "TOK").1,
   (c5_checkpoint_write_not_atomic "room" "TOK").2.2⟩

/-- C7: the whoami retry policy classifies HTTP 5xx and 429 responses as
retryable, every other 4xx response as fatal (overriding any transport
classification), and a plain non-network error as fatal; the loop aborts
immediately with a fatal error on a non-retryable failure, fails with a
terminal error when a positive maximum retry count is configured and
reached, and otherwise retries with the attempt counter incremented; the
fixed inter-attempt delay is 10 seconds. -/
theorem c7_whoami_retry_policy :
    (∀ (e : WhoamiError) (code : Int), e.httpStatus = some code → 500 ≤ code →
      isRetryableWhoami e = true) ∧
    (∀ e : WhoamiError, e.httpStatus = some 429 → isRetryableWhoami e = true) ∧
    (∀ (e : WhoamiError) (code : Int), e.httpStatus = some code → 400 ≤ code →
      code < 500 → code ≠ 429 → isRetryableWhoami e = false) ∧
    isRetryableWhoami ⟨TransportErr.otherErr, none⟩ = false ∧
    (∀ (maxR : Int) (e : WhoamiError) (rest : List (Option WhoamiError)) (n : Nat),
      isRetryableWhoami e = false →
      whoamiRetryLoop maxR (some e :: rest) n = InitOutcome.fatalError n) ∧
    (∀ (maxR : Int) (e : WhoamiError) (rest : List (Option WhoamiError)) (n : Nat),
      isRetryableWhoami e = true → 0 < maxR → (n : Int) ≥ maxR - 1 →
      whoamiRetryLoop maxR (some e :: rest) n = InitOutcome.maxRetriesExceeded n) ∧
    (∀ (maxR : Int) (e : WhoamiError) (rest : List (Option WhoamiError)) (n : Nat),
      isRetryableWhoami e = true → ¬(maxR > 0 ∧ (n : Int) ≥ maxR - 1) →
      whoamiRetryLoop maxR (some e :: rest) n = whoamiRetryLoop maxR rest (n + 1)) ∧
    matrixConnectionRetryDelaySeconds = 10 := by
  refine ⟨?_, ?_, ?_, rfl, ?_, ?_, ?_, rfl⟩
  · intro e code h hge
    obtain ⟨tr, hs⟩ := e
    simp only at h
    subst h
    unfold isRetryableWhoami
    dsimp only
    rw [if_neg (by omega), if_pos (Or.inl hge)]
  · intro e h
    obtain ⟨tr, hs⟩ := e
    simp only at h
    subst h
    unfold isRetryableWhoami
    dsimp only
    rw [if_neg (by omega), if_pos (Or.inr rfl)]
  · intro e code h h400 h500 hne
    obtain ⟨tr, hs⟩ := e
    simp only at h
    subst h
    unfold isRetryableWhoami
    dsimp only
    rw [if_pos ⟨h400, h500, hne⟩]
  · intro maxR e rest n hret
    unfold whoamiRetryLoop
    rw [if_neg (by simp [hret])]
  · intro maxR e rest n hret hpos hge
    unfold whoamiRetryLoop
    rw [if_pos hret, if_pos ⟨hpos, hge⟩]
  · intro maxR e rest n hret hnot
    conv_lhs => unfold whoamiRetryLoop
    rw [if_pos hret, if_neg hnot]

/-- C7 witness: the classification and the loop behavior at concrete
errors: 503 is retryable, 404 is fatal even on a transport error, a fatal
error aborts at once, a reached maximum yields the terminal error, and a
retryable error followed by success retries once. -/
theorem c7_witness :
    isRetryableWhoami ⟨TransportErr.otherErr, some 503⟩ = true ∧
    isRetryableWhoami ⟨TransportErr.eofErr, some 404⟩ = false ∧
    whoamiRetryLoop 0 [some ⟨TransportErr.otherErr, some 404⟩] 0 =
      InitOutcome.fatalError 0 ∧
    whoamiRetryLoop 1 [some ⟨TransportErr.eofErr, none⟩] 0 =
      InitOutcome.maxRetriesExceeded 0 ∧
    whoamiRetryLoop 0 [some ⟨TransportErr.eofErr, none⟩, none] 0 =
      InitOutcome.success 1 :=
  ⟨c7_whoami_retry_policy.1 ⟨TransportErr.otherErr, some 503⟩ 503 rfl (by decide),
   c7_whoami_retry_policy.2.2.1 ⟨TransportErr.eofErr, some 404⟩ 404 rfl (by decide)
     (by decide) (by decide),
   c7_whoami_retry_policy.2.2.2.2.1 0 ⟨TransportErr.otherErr, some 404⟩ [] 0 (by decide),
   c7_whoami_retry_policy.2.2.2.2.2.1 1 ⟨TransportErr.eofErr, none⟩ [] 0 rfl
     (by decide) (by decide),
   (c7_whoami_retry_policy.2.2.2.2.2.2.1 0 ⟨TransportErr.eofErr, none⟩ [none] 0 rfl
     (by decide)).trans rfl⟩

end MatrixBackup
